import Mathlib

/-!
Shallow embedding of `src/index.js` of this repository (a fork of
`babel-plugin-transform-define` that also rewrites import declarations).

JavaScript objects are modelled with an explicit heap: an object value is an
address into a list of field lists, so shared and cyclic replacement
configurations are representable exactly as in the runtime.  Pure string
helpers are implemented over `List Char` so that every definition evaluates
inside the kernel on concrete inputs.
-/

/-- JavaScript primitive values as they occur in replacement configurations. -/
inductive Prim where
  | str (s : String)
  | num (n : Int)
  | bool (b : Bool)
  | null
  | undefined
deriving DecidableEq

/-- A JavaScript value: a primitive, or a reference to an object in the heap. -/
inductive JsVal where
  | prim (p : Prim)
  | ref (a : Nat)
deriving DecidableEq

/-- A JavaScript object: its own enumerable fields in insertion order
(`Object.keys` order for the string keys used by replacement configs). -/
abbrev JsObj := List (String × JsVal)

/-- The object heap: address `a` denotes `heap[a]`. -/
abbrev Heap := List JsObj

/-- JavaScript truthiness, used by the `if (!obj) { return []; }` guard of
`getSortedObjectPaths`: `null`, `undefined`, `false`, `0` and `""` are falsy,
every object reference is truthy. -/
def jsFalsy : JsVal → Bool
  | .prim .null => true
  | .prim .undefined => true
  | .prim (.bool b) => !b
  | .prim (.num n) => n == 0
  | .prim (.str s) => s == ""
  | .ref _ => false

/-- Recursion of `traverse(obj).paths()` (the `traverse` npm package used at
src/index.js line 20): a pre-order walk that records the path of every node it
visits; a node that is an object already on the current ancestor stack (the
library's `parents` array) has its path recorded but is not descended into,
which is the library's circular-reference guard.  The `fuel` argument is only
a recursion-depth bound letting the walk be a structurally recursive function;
`walkVal_fuel_stable` below shows that any fuel above the heap size yields the
same list, i.e. the walk of the JavaScript library terminates. -/
def walkVal (heap : Heap) : Nat → List Nat → List String → JsVal → List (List String)
  | _, _, path, .prim _ => [path]
  | 0, _, path, .ref _ => [path]
  | fuel + 1, anc, path, .ref a =>
      if a ∈ anc then [path]
      else
        match heap[a]? with
        | none => [path]
        | some fields =>
            path :: fields.flatMap (fun kv => walkVal heap fuel (a :: anc) (path ++ [kv.1]) kv.2)

/-- Array.prototype.join with separator `"."`, as in `.map((arr) => arr.join("."))`. -/
def joinDot : List String → String
  | [] => ""
  | [s] => s
  | s :: rest => s ++ "." ++ joinDot rest

/-- The callback passed to `.sort` at src/index.js line 24: `(elem) => elem.length`.
JavaScript hands the callback two elements and uses the sign of the returned
number; this callback ignores its second argument and returns the length of
the first. -/
def sortCallback (elem : String) (other : String) : Int :=
  let _ := other
  (elem.length : Int)

/-- Run detection of V8's TimSort (`countRunAndMakeAscending`): the comparator
is asked about each adjacent pair `(a[i], a[i-1])`; when every answer is
nonnegative the whole array is a single ascending run. -/
def adjacentAscending (c : String → String → Int) : List String → Bool
  | [] => true
  | [_] => true
  | x :: y :: rest => decide (0 ≤ c y x) && adjacentAscending c (y :: rest)

/-- Ordering used as the fallback arm of `jsSort`: a stable merge sort, which
is what TimSort computes for a consistent comparator. -/
def jsMergeSort (c : String → String → Int) (l : List String) : List String :=
  l.mergeSort (fun a b => decide (c a b ≤ 0))

/-- Array.prototype.sort under Node's V8 engine (TimSort, Node 11+): when the
comparator reports every adjacent pair as already in order the array is a
single ascending run and is returned unchanged; for a consistent comparator
the result is the stable sorted order, modelled by the merge-sort fallback
(never reached for `sortCallback`, whose answers are all nonnegative). -/
def jsSort (c : String → String → Int) (l : List String) : List String :=
  if adjacentAscending c l then l else jsMergeSort c l

/-- getSortedObjectPaths (src/index.js lines 17-25): flatten a configuration
into every dot-joined non-root path, then apply `.sort((elem) => elem.length)`.
The walk runs with fuel `heap.length + 1`, which `walkVal_fuel_stable` proves
is beyond the stabilization point. -/
def getSortedObjectPaths (heap : Heap) (obj : JsVal) : List String :=
  if jsFalsy obj then []
  else
    jsSort sortCallback
      (((walkVal heap (heap.length + 1) [] [] obj).filter
          (fun arr => arr.length != 0)).map joinDot)

/-! ### String helpers (kernel-computable models of the JavaScript string API) -/

/-- Does the pattern (first argument) occur at the head of the text? -/
def leadsWith : List Char → List Char → Bool
  | [], _ => true
  | _ :: _, [] => false
  | p :: ps, c :: cs => p == c && leadsWith ps cs

/-- First occurrence search: `splitFirst pat s` returns the text before and
after the first occurrence of `pat` in `s`, or `none` when `pat` does not
occur.  An empty pattern occurs at position 0, as for JavaScript `indexOf`. -/
def splitFirst (pat : List Char) : List Char → Option (List Char × List Char)
  | [] => if leadsWith pat [] then some ([], []) else none
  | c :: cs =>
      if leadsWith pat (c :: cs) then some ([], (c :: cs).drop pat.length)
      else
        match splitFirst pat cs with
        | some (pre, post) => some (c :: pre, post)
        | none => none

/-- JavaScript `s.indexOf(sub) >= 0` (the guard at src/index.js line 98). -/
def jsContains (s sub : String) : Bool :=
  (splitFirst sub.toList s.toList).isSome

/-- JavaScript `s.replace(pat, rep)` where `pat` is a string: replace the
first occurrence of the literal substring `pat`, leaving `s` unchanged if
`pat` does not occur (src/index.js lines 99, 101, 122, 126).  The `$`-escape
forms of the replacement string are not modelled (no claim exercises them). -/
def jsReplaceFirst (s pat rep : String) : String :=
  match splitFirst pat.toList s.toList with
  | none => s
  | some (pre, post) => String.mk (pre ++ rep.toList ++ post)

/-- Helper for `splitDot`: accumulates the current (reversed) segment. -/
def splitDotAux : List Char → List Char → List String
  | acc, [] => [String.mk acc.reverse]
  | acc, c :: cs =>
      if c == '.' then String.mk acc.reverse :: splitDotAux [] cs
      else splitDotAux (c :: acc) cs

/-- Split a lodash path string on dots, as `stringToPath` does for the keys
produced by `getSortedObjectPaths` (bracket segments of `stringToPath` are not
modelled: flattened keys are dot-joins of plain object keys). -/
def splitDot (s : String) : List String :=
  splitDotAux [] s.toList

/-! ### lodash `get` / `has`
processNode and the ImportDeclaration visitor guard every replacement with
`has(replacements, replacementKey)` and read it with `get(replacements,
replacementKey)` where `replacementKey` can be `undefined` (the result of a
failed `find`).  lodash `castPath` treats `undefined` as the single-element
path `[undefined]` whose key coerces to the string `"undefined"`, and treats
a string key as the one-element path `[key]` when it contains no dot or is an
own property of the object, splitting it on dots otherwise. -/

/-- Own-field lookup on an object, first binding wins (JavaScript objects
cannot hold a key twice). -/
def lookupField (fields : JsObj) (k : String) : Option JsVal :=
  (fields.find? (fun kv => kv.1 == k)).map Prod.snd

/-- Does the root object own a field named `k`? (lodash `isKey`'s
`value in Object(object)` test, restricted to own properties; inherited
properties are not modelled). -/
def hasOwnTopField (heap : Heap) (root : JsVal) (k : String) : Bool :=
  match root with
  | .ref a =>
      match heap[a]? with
      | some fields => (lookupField fields k).isSome
      | none => false
  | .prim _ => false

/-- lodash `castPath` for the two key forms that occur here: `undefined`
(failed `find`) and a flattened key string. -/
def castPath (heap : Heap) (root : JsVal) (key : Option String) : List String :=
  match key with
  | none => ["undefined"]
  | some k =>
      if !(k.toList.contains '.') || hasOwnTopField heap root k then [k]
      else splitDot k

/-- Walk a cast path through the heap, own properties only. -/
def getPathList (heap : Heap) : JsVal → List String → Option JsVal
  | v, [] => some v
  | .ref a, k :: ks =>
      match heap[a]? with
      | some fields =>
          match lookupField fields k with
          | some v' => getPathList heap v' ks
          | none => none
      | none => none
  | .prim _, _ :: _ => none

/-- lodash `has(object, path)` as called at src/index.js lines 79, 152, 159. -/
def jsHas (heap : Heap) (root : JsVal) (key : Option String) : Bool :=
  (getPathList heap root (castPath heap root key)).isSome

/-- lodash `get(object, path)` as called at src/index.js lines 80, 153, 160;
a missing path yields `undefined`. -/
def jsGet (heap : Heap) (root : JsVal) (key : Option String) : JsVal :=
  (getPathList heap root (castPath heap root key)).getD (.prim .undefined)

/-! ### The expression tree and the substitution executor -/

/-- Fragment of the Babel expression AST touched by the engine: literals
(including the object expression `t.valueToNode` builds from the object at a
heap address), identifiers, member accesses, unary and binary expressions. -/
inductive Expr where
  | lit (p : Prim)
  | objLit (a : Nat)
  | ident (name : String)
  | member (obj : Expr) (prop : String)
  | unary (op : String) (arg : Expr)
  | binop (op : String) (l : Expr) (r : Expr)
deriving DecidableEq

/-- One-hole context above the node a visitor is handed: the node may sit
under no parent, under the left or right operand slot of a binary expression,
or under any other (non-binary) parent, recursively. -/
inductive Ctx where
  | top
  | binL (op : String) (r : Expr) (k : Ctx)
  | binR (op : String) (l : Expr) (k : Ctx)
  | nonBin (tag : String) (k : Ctx)
deriving DecidableEq

/-- A `NodePath` as far as the engine inspects it: the node plus its context. -/
structure Focus where
  ctx : Ctx
  node : Expr
deriving DecidableEq

/-- Babel `t.valueToNode`: a primitive becomes the corresponding literal
node, a plain object becomes the object expression built from the object at
that address (its internal shape is never inspected by the engine). -/
def valueToNode : JsVal → Expr
  | .prim p => .lit p
  | .ref a => .objLit a

/-- JavaScript strict equality `===` on the primitives of the model (no NaN
or negative zero: numbers are integers here). -/
def primStrictEq (a b : Prim) : Bool :=
  a == b

/-- Static evaluation of one binary operator on known operands, the fragment
of Babel's evaluator the folding cascade exercises; `none` stands for "not
confident" (unknown operator or operand shapes outside the fragment). -/
def evalBinop (op : String) (a b : Prim) : Option Prim :=
  match op with
  | "===" => some (.bool (primStrictEq a b))
  | "!==" => some (.bool (!primStrictEq a b))
  | "+" =>
      match a, b with
      | .num x, .num y => some (.num (x + y))
      | .str x, .str y => some (.str (x ++ y))
      | _, _ => none
  | _ => none

/-- Babel `path.evaluate()` restricted to the literal/binary fragment:
`some v` models a confident result `v`, `none` models `confident: false`. -/
def evaluate : Expr → Option Prim
  | .lit p => some p
  | .binop op l r =>
      match evaluate l, evaluate r with
      | some a, some b => evalBinop op a b
      | _, _ => none
  | _ => none

/-- replaceAndEvaluateNode (src/index.js lines 56-66): replace the node with
`replaceFn replacement`; then, if the immediate parent is a binary
expression, evaluate the parent as it now stands and, when the evaluation is
confident, replace the parent too with `replaceFn` of the evaluated value.
The returned focus is the path position the executor leaves behind; the
context beyond the parent is never touched. -/
def replaceAndEvaluateNode (replaceFn : JsVal → Expr) (f : Focus) (replacement : JsVal) : Focus :=
  let newNode := replaceFn replacement
  match f.ctx with
  | .binL op r k =>
      match evaluate (.binop op newNode r) with
      | some v => ⟨k, replaceFn (.prim v)⟩
      | none => ⟨.binL op r k, newNode⟩
  | .binR op l k =>
      match evaluate (.binop op l newNode) with
      | some v => ⟨k, replaceFn (.prim v)⟩
      | none => ⟨.binR op l k, newNode⟩
  | ctx => ⟨ctx, newNode⟩

/-- processNode (src/index.js lines 76-82): find the first flattened key the
comparator accepts, and if lodash `has` confirms it, substitute via
`replaceAndEvaluateNode`.  A failed `find` yields the key `undefined`
(`none`), which `has`/`get` then coerce as modelled above. -/
def processNode (heap : Heap) (replacements : JsVal) (f : Focus)
    (replaceFn : JsVal → Expr) (comparator : Expr → String → Bool) : Focus :=
  let replacementKey :=
    (getSortedObjectPaths heap replacements).find? (fun value => comparator f.node value)
  if jsHas heap replacements replacementKey then
    replaceAndEvaluateNode replaceFn f (jsGet heap replacements replacementKey)
  else f

/-! ### Identifier / typeof comparators and the UnaryExpression visitor -/

/-- identifierComparator (src/index.js line 132): `nodePath.node.name === value`;
a node shape without a `name` gives `undefined`, never equal to a string. -/
def identifierComparator (node : Expr) (value : String) : Bool :=
  match node with
  | .ident n => n == value
  | _ => false

/-- JavaScript read of `argument.name`: only an identifier has a `name`
property, every other shape yields `undefined` (`none`). -/
def argName : Expr → Option String
  | .ident n => some n
  | _ => none

/-- unaryExpressionComparator (src/index.js line 133):
`nodePath.node.argument.name === value`; for a non-identifier argument the
left side is `undefined` and the strict equality is false. -/
def unaryExpressionComparator (node : Expr) (value : String) : Bool :=
  match node with
  | .unary _ arg => argName arg == some value
  | _ => false

/-- Key-collection loop of the UnaryExpression visitor (src/index.js lines
177-184): every top-level configuration key whose first seven characters are
`"typeof "` contributes a field named by the rest of the key; other keys are
skipped. -/
def typeofValues (heap : Heap) (replacements : JsVal) : JsObj :=
  match replacements with
  | .ref a =>
      match heap[a]? with
      | some fields =>
          (fields.filter (fun kv => kv.1.take 7 == "typeof ")).map
            (fun kv => (kv.1.drop 7, kv.2))
      | none => []
  | .prim _ => []

/-- UnaryExpression visitor (src/index.js lines 173-187): a non-`typeof`
operator returns immediately; otherwise the stripped `typeofValues` object is
allocated (a fresh heap cell) and handed to `processNode` with
`unaryExpressionComparator`. -/
def unaryExpressionVisitor (heap : Heap) (replacements : JsVal) (f : Focus) : Focus :=
  match f.node with
  | .unary op _ =>
      if op != "typeof" then f
      else
        processNode (heap ++ [typeofValues heap replacements]) (.ref heap.length) f
          valueToNode unaryExpressionComparator
  | _ => f

/-! ### Import declarations

The visitor at src/index.js lines 146-163 performs two phases: an alias
rename over the named specifiers and a source-path rewrite.  Both comparators
call `String.prototype.match(value)`, which compiles the candidate key as a
regular expression; the engine is therefore parametrised by the host's match
predicate `rmatch s pattern` (truthiness of `s.match(pattern)`).  String
literal nodes live in an explicit `store`, because the source rewrite's
behaviour hinges on which node object the writes land on. -/

/-- One import specifier: a named one carries the imported name, the cached
`imported.loc.identifierName`, and the local alias; default and namespace
specifiers carry only a local name and are filtered out by
`t.isImportSpecifier`. -/
inductive Specifier where
  | named (imported : String) (identifierName : String) (localName : String)
  | defaultSpec (localName : String)
  | namespaceSpec (localName : String)
deriving DecidableEq

/-- The string literal node of an import source: its `value` plus the parser's
`extra` object (`raw`, `rawValue`), each a string. -/
structure SourceNode where
  value : String
  extra : List (String × String)
deriving DecidableEq

/-- An import declaration: its specifiers and the address of its source
string-literal node in the store. -/
structure ImportDecl where
  specifiers : List Specifier
  source : Nat
deriving DecidableEq

/-- The imported name of a specifier, `undefined` (`none`) unless named. -/
def importedOf : Specifier → Option String
  | .named i _ _ => some i
  | _ => none

/-- importAliasComparator (src/index.js lines 135-139): keep the specifiers
owning an `imported` field and test whether some imported name matches the
candidate key as a pattern. -/
def importAliasComparator (rmatch : String → String → Bool) (decl : ImportDecl)
    (value : String) : Bool :=
  let importedSpecifiers := decl.specifiers.filter (fun s => (importedOf s).isSome)
  (importedSpecifiers.find? (fun s => rmatch ((importedOf s).getD "") value)).isSome

/-- The `value` of the declaration's source node as read through the store. -/
def sourceValue (store : List SourceNode) (decl : ImportDecl) : String :=
  match store[decl.source]? with
  | some n => n.value
  | none => ""

/-- importDeclarationComparator (src/index.js line 134):
`nodePath.node.source.value.match(value)`. -/
def importDeclarationComparator (rmatch : String → String → Bool)
    (store : List SourceNode) (decl : ImportDecl) (value : String) : Bool :=
  rmatch (sourceValue store decl) value

/-- JavaScript ToString coercion for the replacement argument of
`String.prototype.replace` and for a replacement key that is `undefined`. -/
def jsToString : JsVal → String
  | .prim (.str s) => s
  | .prim (.num n) => toString n
  | .prim (.bool b) => if b then "true" else "false"
  | .prim .null => "null"
  | .prim .undefined => "undefined"
  | .ref _ => "[object Object]"

/-- Per-specifier step of processImportNameNode (src/index.js lines 95-107):
for a named specifier whose imported name contains the key as a substring
(`indexOf(replacementKey) >= 0`), both the imported name and the cached
`loc.identifierName` get the first occurrence of the key replaced; any other
specifier is left alone.  `t.clone(specifier)` copies the NodePath wrapper
(its own enumerable properties), so the clone's `.node` is the original
specifier node and the net effect on the declaration is this in-place update,
applied once per specifier by the single `for` loop. -/
def rewriteSpecifier (replacement replacementKey : String) : Specifier → Specifier
  | .named imported identifierName localName =>
      if jsContains imported replacementKey then
        .named (jsReplaceFirst imported replacementKey replacement)
          (jsReplaceFirst identifierName replacementKey replacement) localName
      else .named imported identifierName localName
  | s => s

/-- processImportNameNode (src/index.js lines 92-108): the loop body applies
`rewriteSpecifier` to each specifier of the declaration exactly once. -/
def processImportNameNode (replacement replacementKey : String) (decl : ImportDecl) : ImportDecl :=
  { decl with specifiers := decl.specifiers.map (rewriteSpecifier replacement replacementKey) }

/-- processSourceImportNode (src/index.js lines 118-129) with the node store
explicit.  `nodePath.get("source")` is a NodePath whose `.node` field holds
the address of the source literal; `t.clone(sourceNode)` (babel-types `clone`)
copies the own enumerable properties of that NodePath object, so
`newSource.node` is the same address.  The assignments to
`newSourceNode.value` and to each `newSourceNode.extra[item]` therefore
update the node at the original address, and the final
`sourceNode.replaceWith(newSourceNode)` installs that same address. -/
def processSourceImportNode (replacement replacementKey : String)
    (store : List SourceNode) (sourceAddr : Nat) : List SourceNode :=
  match store[sourceAddr]? with
  | none => store
  | some node =>
      let newSourceValue := jsReplaceFirst node.value replacementKey replacement
      let node := { node with value := newSourceValue }
      let node := { node with
        extra := node.extra.map (fun kv => (kv.1, jsReplaceFirst kv.2 replacementKey replacement)) }
      store.set sourceAddr node

/-- ImportDeclaration visitor (src/index.js lines 146-163): flatten the
configuration once, then run the alias phase and the source phase, each
guarded by `has(replacements, key)` on the first matching key (`undefined`
when no key matches, with the lodash coercion modelled in `castPath`). -/
def importDeclarationVisitor (rmatch : String → String → Bool) (heap : Heap)
    (replacements : JsVal) (store : List SourceNode) (decl : ImportDecl) :
    List SourceNode × ImportDecl :=
  let replacementList := getSortedObjectPaths heap replacements
  let key1 := replacementList.find? (fun value => importAliasComparator rmatch decl value)
  let decl1 :=
    if jsHas heap replacements key1 then
      processImportNameNode (jsToString (jsGet heap replacements key1))
        (key1.getD "undefined") decl
    else decl
  let key2 := replacementList.find? (fun value => importDeclarationComparator rmatch store decl1 value)
  let store1 :=
    if jsHas heap replacements key2 then
      processSourceImportNode (jsToString (jsGet heap replacements key2))
        (key2.getD "undefined") store decl1.source
    else store
  (store1, decl1)

/-! ### Regular-expression pattern compilation

`String.prototype.match(value)` first compiles `value` with `new RegExp`,
which throws a SyntaxError on a malformed pattern (for example `"("`).
`regexScan` models the fragment of the ECMAScript pattern grammar relevant
here: group balancing, character-class termination, and trailing escapes;
quantifier-position errors are outside the modelled fragment.  The `Option`
variant of the visitor propagates such a throw as `none`. -/

/-- Scan a pattern, tracking the open-group depth and whether the scanner is
inside a character class. -/
def regexScan : List Char → Nat → Bool → Bool
  | [], depth, inClass => !inClass && depth == 0
  | '\\' :: rest, depth, inClass =>
      match rest with
      | [] => false
      | _ :: rest' => regexScan rest' depth inClass
  | c :: rest, depth, true => regexScan rest depth (!(c == ']'))
  | '(' :: rest, depth, false => regexScan rest (depth + 1) false
  | ')' :: rest, depth, false => depth != 0 && regexScan rest (depth - 1) false
  | '[' :: rest, depth, false => regexScan rest depth true
  | _ :: rest, depth, false => regexScan rest depth false

/-- Does `new RegExp pat` compile (within the modelled grammar fragment)? -/
def regexSyntaxOk (pat : String) : Bool :=
  regexScan pat.toList 0 false

/-- Literal-pattern restriction of the host match predicate: for a pattern
without regex metacharacters, `s.match(pattern)` is truthy exactly when the
pattern occurs as a substring.  Used to instantiate `rmatch` on concrete
inputs. -/
def litMatch (s pattern : String) : Bool :=
  jsContains s pattern

/-- importAliasComparator with the RegExp compilation made explicit: the
pattern is compiled per specifier inside `find`, so the SyntaxError surfaces
iff at least one specifier owns an `imported` name (otherwise `match` is
never called). -/
def importAliasComparatorE (rmatch : String → String → Bool) (decl : ImportDecl)
    (value : String) : Option Bool :=
  let importedSpecifiers := decl.specifiers.filter (fun s => (importedOf s).isSome)
  match importedSpecifiers with
  | [] => some false
  | _ :: _ =>
      if regexSyntaxOk value then some (importAliasComparator rmatch decl value)
      else none

/-- importDeclarationComparator with RegExp compilation explicit: the source
literal always exists, so a malformed pattern always throws here. -/
def importDeclarationComparatorE (rmatch : String → String → Bool)
    (store : List SourceNode) (decl : ImportDecl) (value : String) : Option Bool :=
  if regexSyntaxOk value then some (importDeclarationComparator rmatch store decl value)
  else none

/-- lodash `find` over the candidate keys when the comparator can throw:
stops at the first throw or the first accepted key. -/
def findKeyE (cmp : String → Option Bool) : List String → Option (Option String)
  | [] => some none
  | k :: rest =>
      match cmp k with
      | none => none
      | some true => some (some k)
      | some false => findKeyE cmp rest

/-- ImportDeclaration visitor with the RegExp SyntaxError propagated:
`none` models the uncaught throw that aborts the traversal. -/
def importDeclarationVisitorE (rmatch : String → String → Bool) (heap : Heap)
    (replacements : JsVal) (store : List SourceNode) (decl : ImportDecl) :
    Option (List SourceNode × ImportDecl) :=
  let replacementList := getSortedObjectPaths heap replacements
  match findKeyE (importAliasComparatorE rmatch decl) replacementList with
  | none => none
  | some key1 =>
      let decl1 :=
        if jsHas heap replacements key1 then
          processImportNameNode (jsToString (jsGet heap replacements key1))
            (key1.getD "undefined") decl
        else decl
      match findKeyE (importDeclarationComparatorE rmatch store decl1) replacementList with
      | none => none
      | some key2 =>
          let store1 :=
            if jsHas heap replacements key2 then
              processSourceImportNode (jsToString (jsGet heap replacements key2))
                (key2.getD "undefined") store decl1.source
            else store
          some (store1, decl1)

/-! ### Specification-side characterization of flattening -/

/-- AcyclicPath, the specification's reading of "every non-empty path from
the root to a reachable node (intermediate or leaf) that does not pass
through a cycle" (spec §3, §4.1): a path reaches a node by stepping through
object fields, never stepping into an object that is already an ancestor on
the same path (the "first occurrence" cut of §4.1); the empty path reaches
the node itself. -/
inductive AcyclicPath (heap : Heap) : List Nat → JsVal → List String → Prop where
  | nil (anc : List Nat) (v : JsVal) : AcyclicPath heap anc v []
  | cons (anc : List Nat) (a : Nat) (fields : JsObj) (k : String) (v' : JsVal) (p : List String) :
      a ∉ anc → heap[a]? = some fields → (k, v') ∈ fields →
      AcyclicPath heap (a :: anc) v' p → AcyclicPath heap anc (.ref a) (k :: p)

/-- Well-formed heap: a JavaScript object never holds the same key twice. -/
def HeapWF (heap : Heap) : Prop :=
  ∀ fields ∈ heap, (fields.map Prod.fst).Nodup

/-- Number of heap addresses not yet on the ancestor stack; the walk's
recursion depth is bounded by it. -/
def freeCnt (heap : Heap) (anc : List Nat) : Nat :=
  ((Finset.range heap.length).filter (fun a => a ∉ anc)).card

theorem freeCnt_cons {heap : Heap} {anc : List Nat} {a : Nat}
    (ha : a < heap.length) (hna : a ∉ anc) :
    freeCnt heap (a :: anc) < freeCnt heap anc := by
  apply Finset.card_lt_card
  have hsub : (Finset.range heap.length).filter (fun x => x ∉ (a :: anc)) ⊆
      (Finset.range heap.length).filter (fun x => x ∉ anc) := by
    intro x hx
    simp only [Finset.mem_filter, Finset.mem_range, List.mem_cons] at hx ⊢
    exact ⟨hx.1, fun h => hx.2 (Or.inr h)⟩
  refine (Finset.ssubset_iff_of_subset hsub).mpr ⟨a, ?_, ?_⟩
  · simp only [Finset.mem_filter, Finset.mem_range]
    exact ⟨ha, hna⟩
  · simp

theorem flatMap_congr_walk {α β : Type _} {l : List α} {f g : α → List β}
    (h : ∀ a ∈ l, f a = g a) : l.flatMap f = l.flatMap g := by
  induction l with
  | nil => rfl
  | cons x xs ih =>
      simp only [List.flatMap_cons]
      rw [h x (by simp), ih (fun a ha => h a (by simp [ha]))]

/-- Termination of the flattening walk: past the stabilization point
(`freeCnt`, at the root: the heap size) extra fuel does not change the
result, i.e. the JavaScript recursion bottoms out. -/
theorem walkVal_fuel_stable {heap : Heap} :
    ∀ (fuel₁ fuel₂ : Nat) (anc : List Nat) (path : List String) (v : JsVal),
      freeCnt heap anc < fuel₁ → freeCnt heap anc < fuel₂ →
      walkVal heap fuel₁ anc path v = walkVal heap fuel₂ anc path v := by
  intro fuel₁
  induction fuel₁ with
  | zero => intro fuel₂ anc path v h1 _; omega
  | succ f1 ih =>
      intro fuel₂ anc path v h1 h2
      match fuel₂, h2 with
      | f2 + 1, h2 =>
        cases v with
        | prim pr => rfl
        | ref a =>
            by_cases hmem : a ∈ anc
            · simp [walkVal, hmem]
            · cases hheap : heap[a]? with
              | none => simp [walkVal, hmem, hheap]
              | some fields =>
                  have ha_lt : a < heap.length := by
                    obtain ⟨hlt, -⟩ := List.getElem?_eq_some.mp hheap
                    exact hlt
                  have hlt := @freeCnt_cons heap anc a ha_lt hmem
                  simp only [walkVal, hmem, if_false, hheap]
                  refine congrArg (path :: ·) (flatMap_congr_walk fun kv _ => ?_)
                  exact ih f2 (a :: anc) (path ++ [kv.1]) kv.2 (by omega) (by omega)

/-- Membership in the walk's output is exactly the spec's acyclic-path
predicate, relative to the prefix accumulated so far. -/
theorem mem_walkVal {heap : Heap} :
    ∀ (fuel : Nat) (anc : List Nat) (path : List String) (v : JsVal) (p : List String),
      freeCnt heap anc < fuel →
      (p ∈ walkVal heap fuel anc path v ↔ ∃ q, AcyclicPath heap anc v q ∧ p = path ++ q) := by
  intro fuel
  induction fuel with
  | zero => intro anc path v p h; omega
  | succ f ih =>
      intro anc path v p hf
      cases v with
      | prim pr =>
          simp only [walkVal, List.mem_singleton]
          constructor
          · rintro rfl
            exact ⟨[], .nil _ _, by simp⟩
          · rintro ⟨q, hq, rfl⟩
            cases hq
            simp
      | ref a =>
          by_cases hmem : a ∈ anc
          · simp only [walkVal, if_pos hmem, List.mem_singleton]
            constructor
            · rintro rfl
              exact ⟨[], .nil _ _, by simp⟩
            · rintro ⟨q, hq, rfl⟩
              cases hq with
              | nil => simp
              | cons _ _ _ _ _ _ hna => exact absurd hmem hna
          · cases hheap : heap[a]? with
            | none =>
                simp only [walkVal, if_neg hmem, hheap, List.mem_singleton]
                constructor
                · rintro rfl
                  exact ⟨[], .nil _ _, by simp⟩
                · rintro ⟨q, hq, rfl⟩
                  cases hq with
                  | nil => simp
                  | cons _ _ _ _ _ _ _ hsome =>
                      rw [hheap] at hsome
                      exact absurd hsome (by simp)
            | some fields =>
                have ha_lt : a < heap.length := by
                  obtain ⟨hlt, -⟩ := List.getElem?_eq_some.mp hheap
                  exact hlt
                have hf' : freeCnt heap (a :: anc) < f := by
                  have := @freeCnt_cons heap anc a ha_lt hmem
                  omega
                simp only [walkVal, if_neg hmem, hheap, List.mem_cons, List.mem_flatMap]
                constructor
                · rintro (rfl | ⟨kv, hkv, hp⟩)
                  · exact ⟨[], .nil _ _, by simp⟩
                  · obtain ⟨q, hq, rfl⟩ := (ih _ _ _ _ hf').mp hp
                    obtain ⟨k, v'⟩ := kv
                    exact ⟨k :: q, .cons _ a fields k v' q hmem hheap hkv hq, by simp⟩
                · rintro ⟨q, hq, rfl⟩
                  cases hq with
                  | nil =>
                      left
                      simp
                  | cons _ _ fields' k v' p' hna hsome hin hrest =>
                      right
                      rw [hheap] at hsome
                      injection hsome with hfe
                      subst hfe
                      exact ⟨(k, v'), hin,
                        (ih _ _ _ _ hf').mpr ⟨p', hrest, by simp⟩⟩

/-- Every emitted path extends the accumulated prefix by at most the number
of heap addresses not yet visited: the walk's depth is bounded, for any fuel. -/
theorem length_walkVal_le {heap : Heap} :
    ∀ (fuel : Nat) (anc : List Nat) (path : List String) (v : JsVal) (p : List String),
      p ∈ walkVal heap fuel anc path v → p.length ≤ path.length + freeCnt heap anc := by
  intro fuel
  induction fuel with
  | zero =>
      intro anc path v p hp
      cases v <;> simp only [walkVal, List.mem_singleton] at hp <;> subst hp <;> omega
  | succ f ih =>
      intro anc path v p hp
      cases v with
      | prim pr =>
          simp only [walkVal, List.mem_singleton] at hp
          subst hp
          omega
      | ref a =>
          by_cases hmem : a ∈ anc
          · simp only [walkVal, if_pos hmem, List.mem_singleton] at hp
            subst hp
            omega
          · cases hheap : heap[a]? with
            | none =>
                simp only [walkVal, if_neg hmem, hheap, List.mem_singleton] at hp
                subst hp
                omega
            | some fields =>
                have ha_lt : a < heap.length := by
                  obtain ⟨hlt, -⟩ := List.getElem?_eq_some.mp hheap
                  exact hlt
                have hlt := @freeCnt_cons heap anc a ha_lt hmem
                simp only [walkVal, if_neg hmem, hheap, List.mem_cons,
                  List.mem_flatMap] at hp
                rcases hp with rfl | ⟨kv, _, hp⟩
                · omega
                · have := ih (a :: anc) (path ++ [kv.1]) kv.2 p hp
                  simp only [List.length_append, List.length_singleton] at this
                  omega

/-- With well-formed objects the walk emits each path at most once. -/
theorem nodup_walkVal {heap : Heap} (hwf : HeapWF heap) :
    ∀ (fuel : Nat) (anc : List Nat) (path : List String) (v : JsVal),
      freeCnt heap anc < fuel → (walkVal heap fuel anc path v).Nodup := by
  intro fuel
  induction fuel with
  | zero => intro anc path v h; omega
  | succ f ih =>
      intro anc path v hf
      cases v with
      | prim pr => simp [walkVal]
      | ref a =>
          by_cases hmem : a ∈ anc
          · simp [walkVal, hmem]
          · cases hheap : heap[a]? with
            | none => simp [walkVal, hmem, hheap]
            | some fields =>
                have ha_lt : a < heap.length := by
                  obtain ⟨hlt, -⟩ := List.getElem?_eq_some.mp hheap
                  exact hlt
                have hf' : freeCnt heap (a :: anc) < f := by
                  have := @freeCnt_cons heap anc a ha_lt hmem
                  omega
                simp only [walkVal, if_neg hmem, hheap, List.nodup_cons]
                constructor
                · intro hin
                  obtain ⟨kv, -, hp⟩ := List.mem_flatMap.mp hin
                  obtain ⟨q, -, heq⟩ := (mem_walkVal _ _ _ _ _ hf').mp hp
                  have := congrArg List.length heq
                  simp only [List.length_append, List.length_cons,
                    List.length_singleton] at this
                  omega
                · rw [List.nodup_flatMap]
                  refine ⟨fun kv _ => ih _ _ _ hf', ?_⟩
                  have hkeys := hwf fields (List.getElem?_mem hheap)
                  rw [List.Nodup, List.pairwise_map] at hkeys
                  refine hkeys.imp ?_
                  intro kv kv' hne p hp hp'
                  obtain ⟨q, -, rfl⟩ := (mem_walkVal _ _ _ _ _ hf').mp hp
                  obtain ⟨q', -, heq⟩ := (mem_walkVal _ _ _ _ _ hf').mp hp'
                  rw [List.append_assoc, List.append_assoc] at heq
                  have := List.append_cancel_left heq
                  simp only [List.singleton_append, List.cons.injEq] at this
                  exact hne this.1

/-- The sort callback of src/index.js line 24 answers a nonnegative number on
every pair, so V8 sees one ascending run. -/
theorem adjacentAscending_sortCallback : ∀ l, adjacentAscending sortCallback l = true := by
  intro l
  induction l with
  | nil => rfl
  | cons x xs ih =>
      cases xs with
      | nil => rfl
      | cons y ys =>
          simp only [adjacentAscending, Bool.and_eq_true, decide_eq_true_eq]
          exact ⟨Int.natCast_nonneg _, ih⟩

/-- Under Node's engine the `.sort((elem) => elem.length)` call returns its
input unchanged. -/
theorem jsSort_sortCallback (l : List String) : jsSort sortCallback l = l := by
  simp [jsSort, adjacentAscending_sortCallback]

theorem freeCnt_nil (heap : Heap) : freeCnt heap [] = heap.length := by
  simp [freeCnt]

/-- A primitive node has no outgoing fields, so only the empty path reaches it. -/
theorem acyclicPath_prim {heap : Heap} {anc : List Nat} {pr : Prim} {q : List String}
    (h : AcyclicPath heap anc (.prim pr) q) : q = [] := by
  cases h
  rfl

/-- Strings in the flattened candidate list are exactly the dot-joins of the
non-empty acyclic paths of the configuration. -/
theorem mem_getSortedObjectPaths {heap : Heap} {root : JsVal} (h : jsFalsy root = false)
    (s : String) :
    s ∈ getSortedObjectPaths heap root ↔
      ∃ q, AcyclicPath heap [] root q ∧ q ≠ [] ∧ s = joinDot q := by
  have hfree : freeCnt heap ([] : List Nat) < heap.length + 1 := by
    rw [freeCnt_nil]
    omega
  simp only [getSortedObjectPaths, h, Bool.false_eq_true, if_false, jsSort_sortCallback,
    List.mem_map, List.mem_filter]
  constructor
  · rintro ⟨q, ⟨hq, hlen⟩, rfl⟩
    obtain ⟨q', hq', heq⟩ := (mem_walkVal _ _ _ _ _ hfree).mp hq
    rw [List.nil_append] at heq
    subst heq
    refine ⟨q, hq', ?_, rfl⟩
    simpa using hlen
  · rintro ⟨q, hq, hne, rfl⟩
    refine ⟨q, ⟨(mem_walkVal _ _ _ _ _ hfree).mpr ⟨q, hq, by simp⟩, ?_⟩, rfl⟩
    simpa using hne

/-! ### Claims -/

/-- Convenience: `(q.length != 0) = true` is nonemptiness of the path. -/
theorem length_bne_zero {q : List String} : (q.length != 0) = true ↔ q ≠ [] := by
  cases q <;> simp

theorem joinDot_singleton (s : String) : joinDot [s] = s := rfl

/-- The nested configuration `{ a: { b: { c: 7 } } }` of the specificity
example, laid out on the heap. -/
def abcHeap : Heap := [[("a", .ref 1)], [("b", .ref 2)], [("c", .prim (.num 7))]]

/-- C1: the claim says `getSortedObjectPaths` returns the flattened keys in
deterministic descending length order, so that `processNode` selects
`"a.b.c"` when `"a"`, `"a.b"` and `"a.b.c"` all match.  The code's callback
`(elem) => elem.length` ignores its second argument: it reports each of two
keys as ordered after the other (an inconsistent comparator, so no
deterministic order is specified at all), and under Node's engine the
candidate list comes back in traversal order, shortest first, so with a
comparator accepting every key `processNode` substitutes the value bound to
`"a"` (the object at address 1), not the `7` bound to `"a.b.c"`.  This also
contradicts the function's own doc comment (src/index.js lines 10-12), which
shows the longest path first. -/
theorem sort_callback_defeats_specificity :
    getSortedObjectPaths abcHeap (.ref 0) = ["a", "a.b", "a.b.c"] ∧
    0 < sortCallback "a.b.c" "a" ∧
    0 < sortCallback "a" "a.b.c" ∧
    processNode abcHeap (.ref 0) ⟨.top, .ident "x"⟩ valueToNode (fun _ _ => true)
      = ⟨.top, .objLit 1⟩ := by
  refine ⟨by decide, by decide, by decide, by decide⟩

/-- C2: after `replaceAndEvaluateNode` substitutes the node, a binary-expression
parent whose evaluation is confident is itself replaced by the literal of the
evaluated value, a parent whose evaluation is not confident is left exactly as
the substitution left it, a non-binary parent is never touched, and in every
case the context beyond the immediate parent (`k`) survives unchanged — the
cascade stops after one level. -/
theorem replaceAndEvaluateNode_one_level_cascade :
    ∀ (replaceFn : JsVal → Expr) (op : String) (l r : Expr) (k : Ctx) (node : Expr)
      (replacement : JsVal),
      (∀ v, evaluate (.binop op (replaceFn replacement) r) = some v →
        replaceAndEvaluateNode replaceFn ⟨.binL op r k, node⟩ replacement
          = ⟨k, replaceFn (.prim v)⟩) ∧
      (evaluate (.binop op (replaceFn replacement) r) = none →
        replaceAndEvaluateNode replaceFn ⟨.binL op r k, node⟩ replacement
          = ⟨.binL op r k, replaceFn replacement⟩) ∧
      (∀ v, evaluate (.binop op l (replaceFn replacement)) = some v →
        replaceAndEvaluateNode replaceFn ⟨.binR op l k, node⟩ replacement
          = ⟨k, replaceFn (.prim v)⟩) ∧
      (evaluate (.binop op l (replaceFn replacement)) = none →
        replaceAndEvaluateNode replaceFn ⟨.binR op l k, node⟩ replacement
          = ⟨.binR op l k, replaceFn replacement⟩) ∧
      (∀ tag, replaceAndEvaluateNode replaceFn ⟨.nonBin tag k, node⟩ replacement
          = ⟨.nonBin tag k, replaceFn replacement⟩) ∧
      (replaceAndEvaluateNode replaceFn ⟨.top, node⟩ replacement
          = ⟨.top, replaceFn replacement⟩) := by
  intro replaceFn op l r k node replacement
  refine ⟨?_, ?_, ?_, ?_, ?_, ?_⟩
  · intro v hv
    simp [replaceAndEvaluateNode, hv]
  · intro hv
    simp [replaceAndEvaluateNode, hv]
  · intro v hv
    simp [replaceAndEvaluateNode, hv]
  · intro hv
    simp [replaceAndEvaluateNode, hv]
  · intro tag
    simp [replaceAndEvaluateNode]
  · simp [replaceAndEvaluateNode]

theorem replaceAndEvaluateNode_one_level_cascade_witness :
    replaceAndEvaluateNode valueToNode
        ⟨.binL "===" (.lit (.str "production")) .top,
          .member (.member (.ident "process") "env") "NODE_ENV"⟩
        (.prim (.str "production"))
      = ⟨.top, .lit (.bool true)⟩ ∧
    replaceAndEvaluateNode valueToNode
        ⟨.binL "===" (.ident "y") .top, .ident "DEBUG"⟩
        (.prim (.str "production"))
      = ⟨.binL "===" (.ident "y") .top, .lit (.str "production")⟩ :=
  ⟨(replaceAndEvaluateNode_one_level_cascade valueToNode "===" (.lit .null)
      (.lit (.str "production")) .top
      (.member (.member (.ident "process") "env") "NODE_ENV")
      (.prim (.str "production"))).1 (.bool true) (by decide),
   (replaceAndEvaluateNode_one_level_cascade valueToNode "===" (.lit .null)
      (.ident "y") .top (.ident "DEBUG") (.prim (.str "production"))).2.1 (by decide)⟩

/-- C3: a null or absent configuration flattens to the empty list, and for
every well-formed configuration the emitted entries are, one for one, the
dot-joins of exactly the non-empty acyclic paths of the configuration (the
witness list `ps` enumerates each such path once, and the output is its
image under `joinDot`). -/
theorem getSortedObjectPaths_flattening :
    ∀ (heap : Heap) (root : JsVal),
      getSortedObjectPaths heap (.prim .null) = [] ∧
      getSortedObjectPaths heap (.prim .undefined) = [] ∧
      (HeapWF heap →
        ∃ ps : List (List String), ps.Nodup ∧
          (∀ q, q ∈ ps ↔ (AcyclicPath heap [] root q ∧ q ≠ [])) ∧
          getSortedObjectPaths heap root = ps.map joinDot) := by
  intro heap root
  refine ⟨rfl, rfl, fun hwf => ?_⟩
  cases hroot : jsFalsy root with
  | true =>
      refine ⟨[], by simp, ?_, ?_⟩
      · intro q
        simp only [List.not_mem_nil, false_iff, not_and]
        intro hq
        cases root with
        | prim pr =>
            intro hne
            exact hne (acyclicPath_prim hq)
        | ref a => simp [jsFalsy] at hroot
      · simp [getSortedObjectPaths, hroot]
  | false =>
      have hfree : freeCnt heap ([] : List Nat) < heap.length + 1 := by
        rw [freeCnt_nil]
        omega
      refine ⟨(walkVal heap (heap.length + 1) [] [] root).filter (fun arr => arr.length != 0),
        List.Nodup.filter _ (nodup_walkVal hwf _ _ _ _ hfree), ?_, ?_⟩
      · intro q
        simp only [List.mem_filter]
        constructor
        · rintro ⟨hq, hlen⟩
          obtain ⟨q', hq', heq⟩ := (mem_walkVal _ _ _ _ _ hfree).mp hq
          rw [List.nil_append] at heq
          subst heq
          exact ⟨hq', length_bne_zero.mp hlen⟩
        · rintro ⟨hq, hne⟩
          exact ⟨(mem_walkVal _ _ _ _ _ hfree).mpr ⟨q, hq, by simp⟩, length_bne_zero.mpr hne⟩
      · simp [getSortedObjectPaths, hroot, jsSort_sortCallback]

theorem getSortedObjectPaths_flattening_witness :
    ∃ ps : List (List String), ps.Nodup ∧
      (∀ q, q ∈ ps ↔
        (AcyclicPath [[("a", JsVal.prim (.num 1))]] [] (.ref 0) q ∧ q ≠ [])) ∧
      getSortedObjectPaths [[("a", JsVal.prim (.num 1))]] (.ref 0) = ps.map joinDot :=
  (getSortedObjectPaths_flattening [[("a", JsVal.prim (.num 1))]] (.ref 0)).2.2
    (by unfold HeapWF; decide)

/-- Self-referential configuration `const o = { x: 1 }; o.self = o;`. -/
def cyclicHeap : Heap := [[("self", .ref 0), ("x", .prim (.num 1))]]

/-- C4: the flattening walk stabilizes once the fuel exceeds the heap size
(the JavaScript recursion terminates on every finite or self-referential
configuration), every emitted path is bounded in length by the number of
heap objects (the result is finite with no re-emission below a cyclic
value), and on the concrete self-referential configuration the cyclic field
contributes exactly its own path and nothing deeper. -/
theorem flattening_terminates :
    (∀ (heap : Heap) (v : JsVal) (fuel : Nat), heap.length < fuel →
      walkVal heap fuel [] [] v = walkVal heap (heap.length + 1) [] [] v) ∧
    (∀ (heap : Heap) (v : JsVal) (p : List String),
      p ∈ walkVal heap (heap.length + 1) [] [] v → p.length ≤ heap.length) ∧
    getSortedObjectPaths cyclicHeap (.ref 0) = ["self", "x"] := by
  refine ⟨?_, ?_, by decide⟩
  · intro heap v fuel hfuel
    exact walkVal_fuel_stable fuel (heap.length + 1) [] [] v
      (by rw [freeCnt_nil]; omega) (by rw [freeCnt_nil]; omega)
  · intro heap v p hp
    have := @length_walkVal_le heap (heap.length + 1) [] [] v p hp
    rw [freeCnt_nil] at this
    simpa using this

theorem flattening_terminates_witness :
    walkVal cyclicHeap 5 [] [] (.ref 0) = walkVal cyclicHeap (cyclicHeap.length + 1) [] [] (.ref 0) ∧
    (["self"] : List String).length ≤ cyclicHeap.length :=
  ⟨flattening_terminates.1 cyclicHeap (.ref 0) 5 (by decide),
   flattening_terminates.2.1 cyclicHeap (.ref 0) ["self"] (by decide)⟩
/-- C5: candidate keys for the `typeof` shape come only from configuration
keys carrying the `"typeof "` prefix, with the prefix stripped before
matching (general part, for prefixed keys bound to primitive values, the
only ones whose flattening is a single bare name); and the configuration
`{ "typeof window": "undefined" }` applied to `typeof window` replaces the
expression by the literal `"undefined"` (concrete part). -/
theorem typeof_candidates :
    (∀ (heap : Heap) (a : Nat) (fields : JsObj) (c : String),
      heap[a]? = some fields →
      (∀ kv ∈ fields, kv.1.take 7 = "typeof " → ∃ pr, kv.2 = JsVal.prim pr) →
      (c ∈ getSortedObjectPaths (heap ++ [typeofValues heap (.ref a)]) (.ref heap.length) ↔
        ∃ kv ∈ fields, kv.1.take 7 = "typeof " ∧ kv.1.drop 7 = c)) ∧
    unaryExpressionVisitor [[("typeof window", .prim (.str "undefined"))]] (.ref 0)
        ⟨.top, .unary "typeof" (.ident "window")⟩
      = ⟨.top, .lit (.str "undefined")⟩ := by
  refine ⟨?_, by decide⟩
  intro heap a fields c hheap hprim
  rw [@mem_getSortedObjectPaths (heap ++ [typeofValues heap (.ref a)])
    (JsVal.ref heap.length) rfl]
  constructor
  · rintro ⟨q, hq, hne, rfl⟩
    cases hq with
    | nil => exact absurd rfl hne
    | cons _ _ fields' k v' p hna hsome hin hrest =>
        rw [List.getElem?_concat_length] at hsome
        injection hsome with hfe
        subst hfe
        simp only [typeofValues, hheap, List.mem_map, List.mem_filter] at hin
        obtain ⟨kv, ⟨hkvf, htake⟩, hkeq⟩ := hin
        injection hkeq with h1 h2
        obtain ⟨pr, hpr⟩ := hprim kv hkvf (by simpa using htake)
        rw [hpr] at h2
        have hp : p = [] := acyclicPath_prim (h2 ▸ hrest)
        subst hp
        exact ⟨kv, hkvf, by simpa using htake, by rw [h1, joinDot_singleton]⟩
  · rintro ⟨kv, hkvf, htake, hdrop⟩
    refine ⟨[c], ?_, by simp, (joinDot_singleton c).symm⟩
    refine AcyclicPath.cons _ heap.length (typeofValues heap (.ref a)) c kv.2 []
      (by simp) (List.getElem?_concat_length _ _) ?_ (AcyclicPath.nil _ _)
    simp only [typeofValues, hheap, List.mem_map, List.mem_filter]
    exact ⟨kv, ⟨hkvf, by simpa using htake⟩, by rw [hdrop]⟩

theorem typeof_candidates_witness :
    "window" ∈ getSortedObjectPaths
        ([[("typeof window", JsVal.prim (.str "undefined"))]] ++
          [typeofValues [[("typeof window", JsVal.prim (.str "undefined"))]] (.ref 0)])
        (.ref 1) ↔
      ∃ kv ∈ [("typeof window", JsVal.prim (.str "undefined"))],
        kv.1.take 7 = "typeof " ∧ kv.1.drop 7 = "window" :=
  typeof_candidates.1 [[("typeof window", JsVal.prim (.str "undefined"))]] 0
    [("typeof window", JsVal.prim (.str "undefined"))] "window" (by decide)
    (by
      intro kv hkv htake
      simp only [List.mem_singleton] at hkv
      subst hkv
      exact ⟨.str "undefined", rfl⟩)

/-- Configuration `{ undefined: 1 }`, a legal options object. -/
def undefKeyHeap : Heap := [[("undefined", .prim (.num 1))]]

/-- C6 counterexample: with configuration `{ undefined: 1 }` no candidate key
matches the identifier `x` (the comparator answers false on every flattened
key), yet `processNode` replaces the node with the literal `1`: the failed
`find` yields the key `undefined`, which lodash `has`/`get` coerce to the
string `"undefined"` and happily resolve to the configuration's own
`"undefined"` property. -/
theorem no_match_replacement_counterexample :
    ((getSortedObjectPaths undefKeyHeap (.ref 0)).all
        (fun k => !identifierComparator (.ident "x") k)) = true ∧
    processNode undefKeyHeap (.ref 0) ⟨.top, .ident "x"⟩ valueToNode identifierComparator
      = ⟨.top, .lit (.num 1)⟩ ∧
    (⟨.top, .lit (.num 1)⟩ : Focus) ≠ ⟨.top, .ident "x"⟩ := by
  refine ⟨by decide, by decide, by decide⟩

/-- C6 (amended): when no candidate key's comparator accepts the node *and*
the configuration does not own a top-level `"undefined"` property (so the
coerced lookup of the failed `find`'s key also misses), `processNode`
performs no replacement and returns the focus unchanged. -/
theorem processNode_no_match_frame :
    ∀ (heap : Heap) (replacements : JsVal) (f : Focus) (replaceFn : JsVal → Expr)
      (comparator : Expr → String → Bool),
      (∀ k ∈ getSortedObjectPaths heap replacements, comparator f.node k = false) →
      jsHas heap replacements none = false →
      processNode heap replacements f replaceFn comparator = f := by
  intro heap replacements f replaceFn comparator hcmp hund
  have hfind : (getSortedObjectPaths heap replacements).find?
      (fun value => comparator f.node value) = none :=
    List.find?_eq_none.mpr (fun x hx => by simp [hcmp x hx])
  simp [processNode, hfind, hund]

theorem processNode_no_match_frame_witness :
    processNode [[("a", JsVal.prim (.num 2))]] (.ref 0) ⟨.top, .ident "x"⟩
        valueToNode identifierComparator = ⟨.top, .ident "x"⟩ :=
  processNode_no_match_frame [[("a", JsVal.prim (.num 2))]] (.ref 0) ⟨.top, .ident "x"⟩
    valueToNode identifierComparator (by decide) (by decide)

/-- Store holding the source literal of `import "old-pkg/utils"`. -/
def importSourceStore : List SourceNode :=
  [⟨"old-pkg/utils", [("raw", "'old-pkg/utils'"), ("rawValue", "old-pkg/utils")]⟩]

/-- Configuration `{ "old-pkg": "new-pkg" }`. -/
def importSourceHeap : Heap := [[("old-pkg", .prim (.str "new-pkg"))]]

/-- C7: the claim says the source literal handed to the clone step is never
mutated and keeps every field.  In the code, `t.clone(sourceNode)` clones the
NodePath wrapper, not the node, so the "clone" shares the node object:
running the visitor on `import "old-pkg/utils"` with `{ "old-pkg":
"new-pkg" }` overwrites `value` and both `extra` fields of the node at the
original address (first conjunct) while the declaration keeps pointing at
that same address (second conjunct); the pre-rewrite field values (third
conjunct) are gone from the tree's node. -/
theorem source_node_mutated_in_place :
    (importDeclarationVisitor litMatch importSourceHeap (.ref 0) importSourceStore
        ⟨[], 0⟩).1[0]?
      = some ⟨"new-pkg/utils", [("raw", "'new-pkg/utils'"), ("rawValue", "new-pkg/utils")]⟩ ∧
    (importDeclarationVisitor litMatch importSourceHeap (.ref 0) importSourceStore
        ⟨[], 0⟩).2 = ⟨[], 0⟩ ∧
    importSourceStore[0]?
      = some ⟨"old-pkg/utils", [("raw", "'old-pkg/utils'"), ("rawValue", "old-pkg/utils")]⟩ := by
  refine ⟨by decide, by decide, by decide⟩

/-- Configuration `{ old: "X", oldName: "Y" }`: two overlapping keys that
both match the imported name `oldName`. -/
def overlapHeap : Heap := [[("old", .prim (.str "X")), ("oldName", .prim (.str "Y"))]]

/-- Store for the source literal of `import { oldName as x } from "mod"`. -/
def overlapStore : List SourceNode := [⟨"mod", []⟩]

/-- C8: within one declaration the alias phase applies at most one key — the
specifier list of the visitor's output is the input mapped once through
`rewriteSpecifier` for a single (replacement, key) pair, or untouched
(general part); and with the two overlapping keys `old` and `oldName`, both
matching the specifier `oldName`, the specifier is rewritten exactly once,
with the single selected key `old` (concrete part: the result is `XName`,
not a twice-rewritten name, and the local alias survives).  The visitor is a
pure function of its arguments, so nothing carries over to another
declaration or file. -/
theorem specifier_rewritten_at_most_once :
    (∀ (rmatch : String → String → Bool) (heap : Heap) (replacements : JsVal)
       (store : List SourceNode) (decl : ImportDecl),
       ∃ rep key,
         (importDeclarationVisitor rmatch heap replacements store decl).2.specifiers
             = decl.specifiers.map (rewriteSpecifier rep key) ∨
         (importDeclarationVisitor rmatch heap replacements store decl).2.specifiers
             = decl.specifiers) ∧
    litMatch "oldName" "old" = true ∧
    litMatch "oldName" "oldName" = true ∧
    (importDeclarationVisitor litMatch overlapHeap (.ref 0) overlapStore
        ⟨[.named "oldName" "oldName" "x"], 0⟩).2.specifiers
      = [.named "XName" "XName" "x"] := by
  refine ⟨?_, by decide, by decide, by decide⟩
  intro rmatch heap replacements store decl
  by_cases h : jsHas heap replacements
      ((getSortedObjectPaths heap replacements).find?
        (fun value => importAliasComparator rmatch decl value))
  · refine ⟨jsToString (jsGet heap replacements
        ((getSortedObjectPaths heap replacements).find?
          (fun value => importAliasComparator rmatch decl value))),
      ((getSortedObjectPaths heap replacements).find?
          (fun value => importAliasComparator rmatch decl value)).getD "undefined",
      Or.inl ?_⟩
    simp [importDeclarationVisitor, processImportNameNode, h]
  · refine ⟨"", "", Or.inr ?_⟩
    simp [importDeclarationVisitor, h]

theorem findKeyE_eq {cmpE : String → Option Bool} {cmp : String → Bool} :
    ∀ l : List String, (∀ k ∈ l, cmpE k = some (cmp k)) →
      findKeyE cmpE l = some (l.find? cmp) := by
  intro l
  induction l with
  | nil => intro _; rfl
  | cons x xs ih =>
      intro h
      have hx := h x (by simp)
      simp only [findKeyE, hx]
      cases hcx : cmp x with
      | true => simp [List.find?_cons_of_pos, hcx]
      | false =>
          rw [List.find?_cons_of_neg _ (by simp [hcx])]
          exact ih (fun k hk => h k (by simp [hk]))

theorem importAliasComparatorE_eq {rmatch : String → String → Bool} {decl : ImportDecl}
    {k : String} (h : regexSyntaxOk k = true) :
    importAliasComparatorE rmatch decl k = some (importAliasComparator rmatch decl k) := by
  unfold importAliasComparatorE importAliasComparator
  cases hfil : decl.specifiers.filter (fun s => (importedOf s).isSome) with
  | nil => simp [importAliasComparator, hfil]
  | cons y ys => simp [importAliasComparator, h, hfil]

/-- The import declaration `import { a as b } from "m"` with its store. -/
def badKeyStore : List SourceNode := [⟨"m", []⟩]

/-- Configuration `{ "(": "x" }`: its single flattened key is not valid
RegExp syntax. -/
def badRegexHeap : Heap := [[("(", .prim (.str "x"))]]

/-- C9 counterexample: the claim says processing never crashes on malformed
keys.  The flattened key `"("` does not compile as a regular expression
(unterminated group), and `String.prototype.match` inside
`importAliasComparator` compiles it, so visiting `import { a as b } from
"m"` with configuration `{ "(": "x" }` throws (modelled as `none`). -/
theorem malformed_key_crash_counterexample :
    importDeclarationVisitorE litMatch badRegexHeap (.ref 0) badKeyStore
        ⟨[.named "a" "a" "b"], 0⟩ = none ∧
    regexSyntaxOk "(" = false := by
  refine ⟨by decide, by decide⟩

/-- C9 (amended): flattening itself never raises — it is total and bounded
(see the termination results above) — and processing an import declaration
raises no exception provided every flattened candidate key compiles as a
regular expression; in that case the exception-aware visitor agrees with the
plain one.  (Candidate keys are always strings: flattening dot-joins object
keys, so a non-string key cannot even reach a comparator.) -/
theorem import_visitor_no_crash_on_valid_keys :
    ∀ (rmatch : String → String → Bool) (heap : Heap) (replacements : JsVal)
      (store : List SourceNode) (decl : ImportDecl),
      (∀ k ∈ getSortedObjectPaths heap replacements, regexSyntaxOk k = true) →
      importDeclarationVisitorE rmatch heap replacements store decl
        = some (importDeclarationVisitor rmatch heap replacements store decl) := by
  intro rmatch heap replacements store decl hvalid
  have h1 : findKeyE (importAliasComparatorE rmatch decl)
      (getSortedObjectPaths heap replacements)
      = some ((getSortedObjectPaths heap replacements).find?
          (fun value => importAliasComparator rmatch decl value)) :=
    findKeyE_eq _ (fun k hk => importAliasComparatorE_eq (hvalid k hk))
  have h2 : ∀ d : ImportDecl, findKeyE (importDeclarationComparatorE rmatch store d)
      (getSortedObjectPaths heap replacements)
      = some ((getSortedObjectPaths heap replacements).find?
          (fun value => importDeclarationComparator rmatch store d value)) :=
    fun d => findKeyE_eq _ (fun k hk => by simp [importDeclarationComparatorE, hvalid k hk])
  simp only [importDeclarationVisitorE, importDeclarationVisitor, h1, h2]

theorem import_visitor_no_crash_on_valid_keys_witness :
    importDeclarationVisitorE litMatch importSourceHeap (.ref 0) badKeyStore
        ⟨[.named "a" "a" "b"], 0⟩
      = some (importDeclarationVisitor litMatch importSourceHeap (.ref 0) badKeyStore
          ⟨[.named "a" "a" "b"], 0⟩) :=
  import_visitor_no_crash_on_valid_keys litMatch importSourceHeap (.ref 0) badKeyStore
    ⟨[.named "a" "a" "b"], 0⟩ (by decide)

/-- Configuration `{ "typeof undefined": "x" }`. -/
def typeofUndefHeap : Heap := [[("typeof undefined", .prim (.str "x"))]]

/-- C10 counterexample: the claim says that for every configuration a
`typeof` expression over a non-identifier argument is left unchanged.  The
comparator indeed rejects every candidate (the argument has no `name`), but
with configuration `{ "typeof undefined": "x" }` the stripped candidate
object owns a property named `"undefined"`, which is exactly what the failed
`find`'s `undefined` key coerces to in lodash `has`/`get`, so
`typeof obj.prop` is rewritten to the literal `"x"`. -/
theorem typeof_member_argument_counterexample :
    unaryExpressionVisitor typeofUndefHeap (.ref 0)
        ⟨.top, .unary "typeof" (.member (.ident "obj") "prop")⟩
      = ⟨.top, .lit (.str "x")⟩ ∧
    argName (.member (.ident "obj") "prop") = none ∧
    (⟨.top, .lit (.str "x")⟩ : Focus)
      ≠ ⟨.top, .unary "typeof" (.member (.ident "obj") "prop")⟩ := by
  refine ⟨by decide, by decide, by decide⟩

/-- C10 (amended): for a `typeof` (or any unary) expression whose argument is
not a bare identifier, the visitor total-functionally returns the focus
unchanged — the comparator reads the argument's missing `name`, `undefined`
never equals a string key — provided the stripped candidate object owns no
`"undefined"` property (i.e. the configuration has no `"typeof undefined"`
key feeding the lodash coercion of the failed lookup). -/
theorem typeof_non_identifier_unchanged :
    ∀ (heap : Heap) (replacements : JsVal) (ctx : Ctx) (op : String) (arg : Expr),
      argName arg = none →
      lookupField (typeofValues heap replacements) "undefined" = none →
      unaryExpressionVisitor heap replacements ⟨ctx, .unary op arg⟩ = ⟨ctx, .unary op arg⟩ := by
  intro heap replacements ctx op arg hname hund
  by_cases hop : op = "typeof"
  · subst hop
    have hfind : (getSortedObjectPaths (heap ++ [typeofValues heap replacements])
        (.ref heap.length)).find?
          (fun value => unaryExpressionComparator (Expr.unary "typeof" arg) value) = none :=
      List.find?_eq_none.mpr (fun x _ => by simp [unaryExpressionComparator, hname])
    have hhas : jsHas (heap ++ [typeofValues heap replacements]) (.ref heap.length) none
        = false := by
      simp [jsHas, castPath, getPathList, List.getElem?_concat_length, hund]
    simp [unaryExpressionVisitor, processNode, hfind, hhas]
  · simp [unaryExpressionVisitor, hop]

theorem typeof_non_identifier_unchanged_witness :
    unaryExpressionVisitor [[("typeof window", JsVal.prim (.str "u"))]] (.ref 0)
        ⟨.top, .unary "typeof" (.member (.ident "o") "p")⟩
      = ⟨.top, .unary "typeof" (.member (.ident "o") "p")⟩ :=
  typeof_non_identifier_unchanged [[("typeof window", JsVal.prim (.str "u"))]] (.ref 0)
    .top "typeof" (.member (.ident "o") "p") (by decide) (by decide)
